import Mathlib

/-!
Verification development for the `graphistry/collapse.py` module of pygraphistry.

The module collapses runs of graph nodes sharing an attribute value into
supernodes.  Node and edge tables are pandas DataFrames; after
`check_default_columns_present_and_coerce_to_string` all identity cells are
strings, so identities and cells are modelled as `List Char` (one cell = one
Python string).  Pandas row order is preserved by every operation used in the
source (`.loc` assignment, `drop_duplicates`, `apply`), so tables are modelled
as lists of rows.
-/

namespace PyGraphistry

/-- A Python string (an identity, an attribute value, or a cell of a
pending-key column), modelled as its list of characters. -/
abbrev Ident := List Char

/-- The `WRAP = "~"` delimiter character of `collapse.py`. -/
def WRAP : Char := '~'

/-- The `DEFAULT_VAL = "None"` sentinel of `collapse.py`. -/
def DEFAULT_VAL : Ident := ['N', 'o', 'n', 'e']

/-- Python `str.isspace` characters relevant to `str.split()` (space, tab,
newline, carriage return, vertical tab, form feed). -/
def isWs (ch : Char) : Bool :=
  ch = ' ' || ch = '\t' || ch = '\n' || ch = '\r' || ch = '\x0b' || ch = '\x0c'

/-- Helper for `splitWs`: `acc` is the current (reversed) token being built.
Mirrors Python `str.split()` with no arguments: runs of whitespace separate
tokens, leading/trailing whitespace produces no empty tokens. -/
def splitWsAux : List Char → List Char → List (List Char)
  | [], acc => if acc = [] then [] else [acc.reverse]
  | ch :: rest, acc =>
    if isWs ch then
      if acc = [] then splitWsAux rest []
      else acc.reverse :: splitWsAux rest []
    else splitWsAux rest (ch :: acc)

/-- Python `key.split()` (split on whitespace, dropping empty tokens). -/
def splitWs (s : Ident) : List Ident := splitWsAux s []

/-- Python `" ".join(ts)`. -/
def joinSpace : List Ident → Ident
  | [] => []
  | [t] => t
  | t :: t2 :: ts => t ++ ' ' :: joinSpace (t2 :: ts)

/-- Lexicographic comparison of Python strings by code point, the order
`np.unique` sorts string arrays by. -/
def lexLe : List Char → List Char → Bool
  | [], _ => true
  | _ :: _, [] => false
  | a :: as, b :: bs => if a < b then true else if b < a then false else lexLe as bs

/-- The proposition form of `lexLe`, used as the sorting relation. -/
def LexLe (a b : Ident) : Prop := lexLe a b = true

/-- Strict lexicographic order: `lexLe` together with inequality. -/
def LexLt (a b : Ident) : Prop := LexLe a b ∧ a ≠ b

instance : DecidableRel LexLe := fun a b =>
  inferInstanceAs (Decidable (lexLe a b = true))

/-- `np.unique` on a list of strings: the distinct values in ascending
lexicographic order. -/
def npUnique (l : List Ident) : List Ident :=
  List.insertionSort LexLe l.dedup

/-- Keep-first deduplication, as pandas `drop_duplicates()` (default
`keep='first'`): `seen` accumulates the values already emitted. -/
def dedupFirstAux [DecidableEq α] : List α → List α → List α
  | _, [] => []
  | seen, a :: l =>
    if a ∈ seen then dedupFirstAux seen l else a :: dedupFirstAux (a :: seen) l

/-- Pandas `drop_duplicates()` on a list of rows. -/
def dedupFirst [DecidableEq α] (l : List α) : List α := dedupFirstAux [] l

/-- Source `reduce_key`: `" ".join(np.unique(key.split()))`. -/
def reduce_key (key : Ident) : Ident := joinSpace (npUnique (splitWs key))

/-- Source `unwrap_key`: `str(name).replace(WRAP, "")` removes every
occurrence of the delimiter. -/
def unwrap_key (name : Ident) : Ident := name.filter (fun ch => ¬ (ch = WRAP))

/-- Source `wrap_key`: wrap `name` in `~…~`, unless it already contains the
delimiter (the source's explicit idempotency check). -/
def wrap_key (name : Ident) : Ident :=
  if WRAP ∈ name then name else WRAP :: (name ++ [WRAP])

/-- A row of the node DataFrame: the node-identity column, the attribute
column that `collapse` is run over, and the `collapse_node` pending-key
column. -/
structure NodeRow where
  node : Ident
  attr : Ident
  collapse_node : Ident
deriving DecidableEq

/-- A row of the edge DataFrame: source and destination identity columns, an
attribute column, and the `collapse_src` / `collapse_dst` pending-key
columns. -/
structure EdgeRow where
  src : Ident
  dst : Ident
  attr : Ident
  collapse_src : Ident
  collapse_dst : Ident
deriving DecidableEq

/-- A graphistry instance as seen by `collapse.py`: node and edge tables plus
whether the pending-key columns are present (`COLLAPSE_NODE in ndf.columns`,
`COLLAPSE_SRC in edf.columns`).  When a flag is `false` the corresponding
pending-key fields of the rows are not part of the table (see `nodeView` /
`edgeView`). -/
structure Graph where
  ndf : List NodeRow
  edf : List EdgeRow
  ncols : Bool
  ecols : Bool
deriving DecidableEq

/-- Source `get_cluster_store_keys`: the boolean mask
`ndf[COLLAPSE_NODE].astype(str).str.contains(wrap_key(node), na=False)`.
The pattern `wrap_key node` contains exactly the delimiter and the identity's
own characters; for patterns free of regex metacharacters, pandas
`str.contains` is substring containment (the regex-compilation behaviour on
metacharacter patterns is modelled separately by
`get_cluster_store_keys_rx`). -/
def get_cluster_store_keys (ndf : List NodeRow) (node : Ident) : List Bool :=
  ndf.map (fun r => decide (wrap_key node <:+: r.collapse_node))

/-- Source `in_cluster_store_keys`: `any(get_cluster_store_keys(ndf, node))`. -/
def in_cluster_store_keys (ndf : List NodeRow) (node : Ident) : Bool :=
  (get_cluster_store_keys ndf node).any id

/-- The rows selected by the `get_cluster_store_keys` mask
(`ndf[get_cluster_store_keys(ndf, node)]`). -/
def cluster_rows (ndf : List NodeRow) (node : Ident) : List NodeRow :=
  ndf.filter (fun r => decide (wrap_key node <:+: r.collapse_node))

/-- Source `melt`: start from `wrap_key node`; if the mask selects any rows,
append each selected row's `collapse_node` cell separated by a space and
reduce; otherwise return `wrap_key node` unreduced. -/
def melt (ndf : List NodeRow) (node : Ident) : Ident :=
  let rdf := cluster_rows ndf node
  if rdf = [] then wrap_key node
  else reduce_key (rdf.foldl (fun topkey r => topkey ++ ' ' :: r.collapse_node) (wrap_key node))

/-- Source `get_new_node_name`: melt the child (when both child and parent
are already in cluster keys) or the parent (otherwise), append the other
endpoint's wrapped name, and reduce. -/
def get_new_node_name (ndf : List NodeRow) (parent child : Ident) : Ident :=
  let ckey := in_cluster_store_keys ndf child
  let pkey := in_cluster_store_keys ndf parent
  let new_parent_name :=
    if ckey && pkey then melt ndf child ++ ' ' :: wrap_key parent
    else melt ndf parent ++ ' ' :: wrap_key child
  reduce_key new_parent_name

/-- Source `collapse_nodes_and_edges`: compute the new supernode key from the
current node table, then perform the six `.loc` assignments in source order
(node rows equal to parent, node rows equal to child, edge sources equal to
parent, edge destinations equal to parent, edge sources equal to child, edge
destinations equal to child). -/
def collapse_nodes_and_edges (g : Graph) (parent child : Ident) : Graph :=
  let new_parent_name := get_new_node_name g.ndf parent child
  let ndf1 := g.ndf.map (fun r =>
    if r.node = parent then { r with collapse_node := new_parent_name } else r)
  let ndf2 := ndf1.map (fun r =>
    if r.node = child then { r with collapse_node := new_parent_name } else r)
  let edf1 := g.edf.map (fun e =>
    if e.src = parent then { e with collapse_src := new_parent_name } else e)
  let edf2 := edf1.map (fun e =>
    if e.dst = parent then { e with collapse_dst := new_parent_name } else e)
  let edf3 := edf2.map (fun e =>
    if e.src = child then { e with collapse_src := new_parent_name } else e)
  let edf4 := edf3.map (fun e =>
    if e.dst = child then { e with collapse_dst := new_parent_name } else e)
  { g with ndf := ndf2, edf := edf4 }

/-- Source `has_property`: unwrap `ref_node`, then test membership of the
identity among node rows whose attribute column equals `attribute`. -/
def has_property (g : Graph) (ref_node attrVal : Ident) : Bool :=
  decide (unwrap_key ref_node ∈ (g.ndf.filter (fun r => r.attr = attrVal)).map NodeRow.node)

/-- Source `check_default_columns_present_and_coerce_to_string`: if the
pending-key columns are absent, add them filled with `DEFAULT_VAL` (the
accompanying `astype(str)` coercion is the identity here because cells are
already modelled as strings). -/
def check_default_columns_present_and_coerce_to_string (g : Graph) : Graph :=
  let g1 :=
    if g.ncols then g
    else { g with ndf := g.ndf.map (fun r => { r with collapse_node := DEFAULT_VAL }),
                  ncols := true }
  if g1.ecols then g1
  else { g1 with edf := g1.edf.map (fun e =>
            { e with collapse_src := DEFAULT_VAL, collapse_dst := DEFAULT_VAL }),
                 ecols := true }

/-- Modelled from the spec: the graph handle's one-hop neighbour query
(`g.hop(...)`, an external capability per spec section 6, not part of
`src/`).  For `hops=1` in the forward direction it selects the edge rows
whose source is the queried node. -/
def hop1_edges (g : Graph) (node_id : Ident) : List EdgeRow :=
  g.edf.filter (fun e => e.src = node_id)

/-- Source `get_edges_of_node` with `directed=True, hops=1`:
`g2._edges[dst].drop_duplicates()` on the one-hop subgraph. -/
def get_edges_of_node (g : Graph) (node_id : Ident) : List Ident :=
  dedupFirst ((hop1_edges g node_id).map EdgeRow.dst)

/-- The traversal's textual pair key `f"{parent} {child}"`. -/
def computeKey (parent child : Ident) : Ident := parent ++ ' ' :: child

/-- One pass of the Python `for e in …: collapse(g, e, child, …)` loop: the
loop body discards the returned instance, but the recursive calls mutate the
shared tables and visited set in place, which the fold threads explicitly.
`step g e child seen` is the recursive `collapse` call at one less fuel. -/
def collapseIter
    (step : Graph → Ident → Ident → List Ident → Option (Graph × List Ident)) :
    List Ident → Graph → Ident → List Ident → Option (Graph × List Ident)
  | [], g, _, seen => some (g, seen)
  | e :: es, g, child, seen =>
    match step g e child seen with
    | none => none
    | some gs => collapseIter step es gs.1 child gs.2

/-- Source `collapse`, with an explicit fuel parameter standing for the
Python call stack: `none` means the fuel was exhausted, i.e. the recursion
descended deeper than the given bound (Python raises `RecursionError` when
that never stops).  The shared mutable `seen` dict and the in-place table
mutations are threaded through the recursion; the attribute column is
modelled by the `attr` field of the node rows. -/
def collapse : Nat → Graph → Ident → Ident → Ident → List Ident →
    Option (Graph × List Ident)
  | 0, _, _, _, _, _ => none
  | fuel + 1, g0, child, parent, attrVal, seen =>
    let g1 := check_default_columns_present_and_coerce_to_string g0
    let compute_key := computeKey parent child
    if compute_key ∈ seen then some (g1, seen)
    else
      if has_property g1 parent attrVal then
        let tkey := computeKey parent parent
        let gs :=
          if ¬ (tkey <:+: compute_key) then
            (collapse_nodes_and_edges g1 parent parent, tkey :: seen)
          else (g1, seen)
        if has_property gs.1 child attrVal then
          let g3 := collapse_nodes_and_edges gs.1 parent child
          let seen3 := compute_key :: gs.2
          collapseIter (fun g e c s => collapse fuel g e c attrVal s)
            (get_edges_of_node g3 parent) g3 child seen3
        else some gs
      else
        collapseIter (fun g e c s => collapse fuel g e c attrVal s)
          (get_edges_of_node g1 child) g1 child seen

/-- The node-side commit of `normalize_graph`:
`ndf.loc[ndf[COLLAPSE_NODE] != DEFAULT_VAL, node] = ndf.loc[..., COLLAPSE_NODE]`
acting on one row. -/
def commitNodeRow (r : NodeRow) : NodeRow :=
  if ¬ (r.collapse_node = DEFAULT_VAL) then { r with node := r.collapse_node } else r

/-- The edge-side commit of `normalize_graph`: the two `.loc` assignments
moving `collapse_src` / `collapse_dst` into `src` / `dst`, acting on one
row. -/
def commitEdgeRow (e : EdgeRow) : EdgeRow :=
  { e with src := if ¬ (e.collapse_src = DEFAULT_VAL) then e.collapse_src else e.src,
           dst := if ¬ (e.collapse_dst = DEFAULT_VAL) then e.collapse_dst else e.dst }

/-- Source `normalize_graph`.  Accessing the pending-key columns when they
are absent is a pandas `KeyError`, modelled as `Except.error ()`.  Otherwise:
move pending node keys into the node column and deduplicate; move pending
edge keys into the endpoint columns and deduplicate unless `self_edges`;
unwrap identities if `unwrap`; drop the pending-key columns if
`remove_collapse`. -/
def normalize_graph (g : Graph) (self_edges unwrap remove_collapse : Bool) :
    Except Unit Graph :=
  if g.ncols && g.ecols then
    let ndf1 := g.ndf.map commitNodeRow
    let ndf2 := dedupFirst ndf1
    let edf1 := g.edf.map commitEdgeRow
    let edf2 := if self_edges then edf1 else dedupFirst edf1
    let ndf3 := if unwrap then ndf2.map (fun r => { r with node := unwrap_key r.node }) else ndf2
    let edf3 :=
      if unwrap then
        edf2.map (fun e => { e with src := unwrap_key e.src, dst := unwrap_key e.dst })
      else edf2
    Except.ok { ndf := ndf3, edf := edf3, ncols := !remove_collapse, ecols := !remove_collapse }
  else Except.error ()

/-- The node table as observed through its columns: when the pending-key
column has been dropped (`ncols = false`) a row is just identity and
attributes. -/
def nodeView (g : Graph) : List (Ident × Ident × Option Ident) :=
  g.ndf.map (fun r => (r.node, r.attr, if g.ncols then some r.collapse_node else none))

/-- The edge table as observed through its columns. -/
def edgeView (g : Graph) : List (Ident × Ident × Ident × Option (Ident × Ident)) :=
  g.edf.map (fun e =>
    (e.src, e.dst, e.attr, if g.ecols then some (e.collapse_src, e.collapse_dst) else none))

/-- Minimal model of Python `re` pattern compilation as invoked by pandas
`str.contains` (default `regex=True`): a pattern with unbalanced parentheses
fails to compile (`re.error: missing ), unterminated subpattern`).  Other
failure modes of `re.compile` are not modelled and such patterns are
conservatively treated as compiling; backslash escapes are not modelled (the
patterns produced by `wrap_key` contain none). -/
def parenBal : List Char → Nat → Bool
  | [], 0 => true
  | [], _ + 1 => false
  | ch :: rest, depth =>
    if ch = '(' then parenBal rest (depth + 1)
    else if ch = ')' then
      match depth with
      | 0 => false
      | depth' + 1 => parenBal rest depth'
    else parenBal rest depth

/-- Pandas `Series.str.contains(pat)` with the default `regex=True`: the
pattern is compiled first (raising on an invalid regex, independently of the
cells), then matched against every cell; for patterns free of regex
metacharacters a match is literal substring containment. -/
def str_contains_series_rx (cells : List Ident) (pat : Ident) :
    Except Unit (List Bool) :=
  if parenBal pat 0 then Except.ok (cells.map (fun cell => decide (pat <:+: cell)))
  else Except.error ()

/-- Source `get_cluster_store_keys` with the library's regex behaviour made
explicit: the wrapped identity is handed to `str.contains` as a regular
expression pattern. -/
def get_cluster_store_keys_rx (ndf : List NodeRow) (node : Ident) :
    Except Unit (List Bool) :=
  str_contains_series_rx (ndf.map NodeRow.collapse_node) (wrap_key node)

/-- Source `in_cluster_store_keys` on top of the regex-aware mask. -/
def in_cluster_store_keys_rx (ndf : List NodeRow) (node : Ident) :
    Except Unit Bool :=
  Except.map (fun mask => mask.any id) (get_cluster_store_keys_rx ndf node)

/-!  Helper lemmas about the string-level operations. -/

theorem lexLe_total : ∀ a b : List Char, lexLe a b = true ∨ lexLe b a = true
  | [], _ => Or.inl rfl
  | _ :: _, [] => Or.inr rfl
  | a :: as, b :: bs => by
    rcases lt_trichotomy a b with h | h | h
    · left; simp [lexLe, h]
    · subst h
      have := lexLe_total as bs
      simpa [lexLe, lt_irrefl] using this
    · right; simp [lexLe, h]

theorem lexLe_trans : ∀ a b c : List Char,
    lexLe a b = true → lexLe b c = true → lexLe a c = true
  | [], _, _, _, _ => rfl
  | _ :: _, [], _, hab, _ => by simp [lexLe] at hab
  | _ :: _, _ :: _, [], _, hbc => by simp [lexLe] at hbc
  | a :: as, b :: bs, c :: cs, hab, hbc => by
    simp only [lexLe] at hab hbc ⊢
    by_cases h1 : a < b
    · by_cases h2 : b < c
      · simp [lt_trans h1 h2]
      · by_cases h3 : c < b
        · simp [h2, h3] at hbc
        · have hbc' : b = c := le_antisymm (not_lt.mp h3) (not_lt.mp h2)
          subst hbc'
          simp [h1]
    · by_cases h4 : b < a
      · simp [h1, h4] at hab
      · have hab' : a = b := le_antisymm (not_lt.mp h4) (not_lt.mp h1)
        subst hab'
        simp only [lt_irrefl, if_false] at hab ⊢
        by_cases h2 : a < c
        · simp [h2]
        · by_cases h3 : c < a
          · simp [h2, h3] at hbc
          · simp only [h2, h3, if_false] at hbc ⊢
            exact lexLe_trans as bs cs hab hbc

theorem lexLe_antisymm : ∀ a b : List Char,
    lexLe a b = true → lexLe b a = true → a = b
  | [], [], _, _ => rfl
  | [], _ :: _, _, hba => by simp [lexLe] at hba
  | _ :: _, [], hab, _ => by simp [lexLe] at hab
  | a :: as, b :: bs, hab, hba => by
    simp only [lexLe] at hab hba
    by_cases h1 : a < b
    · simp [h1, asymm h1] at hba
    · by_cases h2 : b < a
      · simp [h1, h2] at hab
      · have hab' : a = b := le_antisymm (not_lt.mp h2) (not_lt.mp h1)
        subst hab'
        simp only [lt_irrefl, if_false] at hab hba
        rw [lexLe_antisymm as bs hab hba]

instance : IsTotal Ident LexLe := ⟨lexLe_total⟩

instance : IsTrans Ident LexLe := ⟨fun a b c => lexLe_trans a b c⟩

theorem sorted_npUnique (l : List Ident) : List.Sorted LexLe (npUnique l) :=
  List.sorted_insertionSort LexLe l.dedup

theorem nodup_npUnique (l : List Ident) : (npUnique l).Nodup :=
  ((List.perm_insertionSort LexLe l.dedup).symm).nodup (List.nodup_dedup l)

theorem mem_npUnique {x : Ident} {l : List Ident} : x ∈ npUnique l ↔ x ∈ l :=
  ((List.perm_insertionSort LexLe l.dedup).mem_iff).trans List.mem_dedup

theorem sorted_lexLt_npUnique (l : List Ident) :
    List.Sorted LexLt (npUnique l) :=
  List.Pairwise.and (sorted_npUnique l) (nodup_npUnique l)

theorem splitWsAux_append_space : ∀ (s acc t : List Char),
    splitWsAux (s ++ ' ' :: t) acc = splitWsAux s acc ++ splitWsAux t []
  | [], acc, t => by
    have hws : isWs ' ' = true := by decide
    by_cases h : acc = [] <;> simp [splitWsAux, hws, h]
  | ch :: s, acc, t => by
    by_cases h : isWs ch
    · by_cases h2 : acc = [] <;>
        simp [splitWsAux, h, h2, splitWsAux_append_space s]
    · simp [splitWsAux, h, splitWsAux_append_space s]

theorem splitWs_append_space (a b : Ident) :
    splitWs (a ++ ' ' :: b) = splitWs a ++ splitWs b :=
  splitWsAux_append_space a [] b

theorem splitWsAux_tokens_good : ∀ (s acc : List Char),
    (∀ ch ∈ acc, isWs ch = false) →
    ∀ t ∈ splitWsAux s acc, t ≠ [] ∧ ∀ ch ∈ t, isWs ch = false
  | [], acc, hacc => by
    by_cases h : acc = []
    · simp [splitWsAux, h]
    · intro t ht
      simp only [splitWsAux, if_neg h, List.mem_singleton] at ht
      subst ht
      constructor
      · simpa using h
      · intro ch hch
        exact hacc ch (List.mem_reverse.mp hch)
  | ch :: s, acc, hacc => by
    by_cases h : isWs ch
    · by_cases h2 : acc = []
      · simpa [splitWsAux, h, h2] using
          splitWsAux_tokens_good s [] (by simp)
      · intro t ht
        simp only [splitWsAux, if_pos h, if_neg h2, List.mem_cons] at ht
        rcases ht with ht | ht
        · subst ht
          exact ⟨by simpa using h2, fun c hc => hacc c (List.mem_reverse.mp hc)⟩
        · exact splitWsAux_tokens_good s [] (by simp) t ht
    · intro t ht
      simp only [splitWsAux, if_neg h] at ht
      refine splitWsAux_tokens_good s (ch :: acc) ?_ t ht
      intro c hc
      rcases List.mem_cons.mp hc with hc | hc
      · subst hc; exact eq_false_of_ne_true h
      · exact hacc c hc

theorem splitWs_tokens_good (s : Ident) :
    ∀ t ∈ splitWs s, t ≠ [] ∧ ∀ ch ∈ t, isWs ch = false :=
  splitWsAux_tokens_good s [] (by simp)

theorem splitWsAux_no_ws : ∀ (t acc : List Char),
    (∀ ch ∈ t, isWs ch = false) →
    splitWsAux t acc = splitWsAux [] (t.reverse ++ acc)
  | [], acc, _ => by simp
  | ch :: t, acc, h => by
    have hch : isWs ch = false := h ch (by simp)
    rw [show splitWsAux (ch :: t) acc = splitWsAux t (ch :: acc) by
          simp [splitWsAux, hch],
        splitWsAux_no_ws t (ch :: acc) (fun c hc => h c (by simp [hc]))]
    simp

theorem splitWs_single (t : Ident) (h0 : t ≠ [])
    (h : ∀ ch ∈ t, isWs ch = false) : splitWs t = [t] := by
  unfold splitWs
  rw [splitWsAux_no_ws t [] h]
  simp [splitWsAux, h0]

theorem splitWs_joinSpace : ∀ ts : List Ident,
    (∀ t ∈ ts, t ≠ [] ∧ ∀ ch ∈ t, isWs ch = false) →
    splitWs (joinSpace ts) = ts
  | [], _ => rfl
  | [t], h => splitWs_single t (h t (by simp)).1 (h t (by simp)).2
  | t :: t2 :: ts, h => by
    show splitWs (t ++ ' ' :: joinSpace (t2 :: ts)) = t :: t2 :: ts
    rw [splitWs_append_space,
        splitWs_single t (h t (by simp)).1 (h t (by simp)).2,
        splitWs_joinSpace (t2 :: ts) (fun x hx => h x (by simp [hx]))]
    rfl

theorem splitWs_reduce_key (key : Ident) :
    splitWs (reduce_key key) = npUnique (splitWs key) := by
  unfold reduce_key
  exact splitWs_joinSpace _ (fun t ht => splitWs_tokens_good key t (mem_npUnique.mp ht))

/-- C9: `reduce_key` returns the deduplicated tokens of its input joined in
strictly ascending lexicographic order: its token list is sorted without
duplicates and has exactly the input's tokens as members.  Determinism is
immediate because `reduce_key` is a pure function of its input. -/
theorem reduce_key_sorted_dedup_tokens (key : Ident) :
    List.Sorted LexLt (splitWs (reduce_key key))
    ∧ ∀ t : Ident, t ∈ splitWs (reduce_key key) ↔ t ∈ splitWs key := by
  rw [splitWs_reduce_key]
  exact ⟨sorted_lexLt_npUnique _, fun t => mem_npUnique⟩

/-- C8: decoding inverts encoding on identities free of the delimiter, and
encoding is idempotent on all identities. -/
theorem wrap_key_round_trip_and_idempotent :
    (∀ x : Ident, WRAP ∉ x → unwrap_key (wrap_key x) = x)
    ∧ ∀ x : Ident, wrap_key (wrap_key x) = wrap_key x := by
  constructor
  · intro x hx
    rw [wrap_key, if_neg hx, unwrap_key]
    simp only [List.filter_cons, List.filter_append]
    have h1 : (¬ (WRAP = WRAP) : Bool) = false := by simp
    have h2 : x.filter (fun ch => ¬ (ch = WRAP)) = x :=
      List.filter_eq_self.mpr (fun a ha => by
        have hne : a ≠ WRAP := fun hEq => hx (hEq ▸ ha)
        simp [hne])
    simp [h1, h2]
    intro a ha hEq
    exact hx (hEq ▸ ha)
  · intro x
    by_cases h : WRAP ∈ x
    · simp only [wrap_key, if_pos h]
    · have hx : wrap_key x = WRAP :: (x ++ [WRAP]) := if_neg h
      rw [hx, wrap_key, if_pos (List.mem_cons_self _ _)]

/-- Witness for C8 at a concrete delimiter-free identity. -/
theorem wrap_key_round_trip_witness :
    unwrap_key (wrap_key ['a', 'b']) = ['a', 'b']
    ∧ wrap_key (wrap_key ['a', 'b']) = wrap_key ['a', 'b'] :=
  ⟨wrap_key_round_trip_and_idempotent.1 ['a', 'b'] (by decide),
   wrap_key_round_trip_and_idempotent.2 ['a', 'b']⟩

/-!  Helper lemmas about keep-first deduplication. -/

theorem mem_of_mem_dedupFirstAux [DecidableEq α] :
    ∀ (l seen : List α) (x : α), x ∈ dedupFirstAux seen l → x ∈ l
  | [], _, _, hx => by simp [dedupFirstAux] at hx
  | a :: l, seen, x, hx => by
    by_cases h : a ∈ seen
    · simp only [dedupFirstAux, if_pos h] at hx
      exact List.mem_cons_of_mem a (mem_of_mem_dedupFirstAux l seen x hx)
    · simp only [dedupFirstAux, if_neg h, List.mem_cons] at hx
      rcases hx with hx | hx
      · simp [hx]
      · exact List.mem_cons_of_mem a (mem_of_mem_dedupFirstAux l (a :: seen) x hx)

theorem dedupFirstAux_not_mem_seen [DecidableEq α] :
    ∀ (l seen : List α) (x : α), x ∈ dedupFirstAux seen l → x ∉ seen
  | [], _, _, hx => by simp [dedupFirstAux] at hx
  | a :: l, seen, x, hx => by
    by_cases h : a ∈ seen
    · simp only [dedupFirstAux, if_pos h] at hx
      exact dedupFirstAux_not_mem_seen l seen x hx
    · simp only [dedupFirstAux, if_neg h, List.mem_cons] at hx
      rcases hx with hx | hx
      · subst hx; exact h
      · intro hmem
        exact dedupFirstAux_not_mem_seen l (a :: seen) x hx
          (List.mem_cons_of_mem a hmem)

theorem nodup_dedupFirstAux [DecidableEq α] :
    ∀ (l seen : List α), (dedupFirstAux seen l).Nodup
  | [], _ => List.nodup_nil
  | a :: l, seen => by
    by_cases h : a ∈ seen
    · simpa only [dedupFirstAux, if_pos h] using nodup_dedupFirstAux l seen
    · simp only [dedupFirstAux, if_neg h, List.nodup_cons]
      refine ⟨fun hmem => ?_, nodup_dedupFirstAux l (a :: seen)⟩
      exact dedupFirstAux_not_mem_seen l (a :: seen) a hmem (List.mem_cons_self a seen)

theorem dedupFirstAux_eq_self [DecidableEq α] :
    ∀ (l seen : List α), l.Nodup → (∀ x ∈ l, x ∉ seen) →
      dedupFirstAux seen l = l
  | [], _, _, _ => rfl
  | a :: l, seen, hnd, hdisj => by
    have ha : a ∉ seen := hdisj a (List.mem_cons_self a l)
    rw [dedupFirstAux, if_neg ha,
        dedupFirstAux_eq_self l (a :: seen) (List.nodup_cons.mp hnd).2 ?_]
    intro x hx
    rw [List.mem_cons]
    rintro (hx2 | hx2)
    · exact (List.nodup_cons.mp hnd).1 (hx2 ▸ hx)
    · exact hdisj x (List.mem_cons_of_mem a hx) hx2

theorem nodup_dedupFirst [DecidableEq α] (l : List α) : (dedupFirst l).Nodup :=
  nodup_dedupFirstAux l []

theorem mem_of_mem_dedupFirst [DecidableEq α] {l : List α} {x : α}
    (hx : x ∈ dedupFirst l) : x ∈ l :=
  mem_of_mem_dedupFirstAux l [] x hx

theorem dedupFirst_eq_self [DecidableEq α] {l : List α} (h : l.Nodup) :
    dedupFirst l = l :=
  dedupFirstAux_eq_self l [] h (by simp)

theorem map_eq_self_of_mem {l : List α} {f : α → α} (h : ∀ x ∈ l, f x = x) :
    l.map f = l :=
  (List.map_congr_left h).trans (List.map_id l)

/-!  Claim theorems about the table operations. -/

/-- C2: one call of `collapse_nodes_and_edges` stores the supernode key
computed from the incoming node table into the pending-key column of exactly
the node rows whose identity is the parent or the child, and into the
source-side / destination-side pending-key column of exactly the edge rows
whose source / destination is the parent or the child; every other pending
cell keeps its previous value and all other fields are untouched. -/
theorem collapse_nodes_and_edges_assigns_pending_keys (g : Graph) (p c : Ident) :
    (collapse_nodes_and_edges g p c).ndf
      = g.ndf.map (fun r =>
          if r.node = p ∨ r.node = c
          then { r with collapse_node := get_new_node_name g.ndf p c } else r)
    ∧ (collapse_nodes_and_edges g p c).edf
      = g.edf.map (fun e =>
          { e with
              collapse_src :=
                if e.src = p ∨ e.src = c then get_new_node_name g.ndf p c
                else e.collapse_src,
              collapse_dst :=
                if e.dst = p ∨ e.dst = c then get_new_node_name g.ndf p c
                else e.collapse_dst }) := by
  constructor
  · simp only [collapse_nodes_and_edges, List.map_map]
    refine List.map_congr_left ?_
    intro r _
    by_cases h1 : r.node = p <;> by_cases h2 : r.node = c <;>
      simp_all [Function.comp]
  · simp only [collapse_nodes_and_edges, List.map_map]
    refine List.map_congr_left ?_
    intro e _
    by_cases h1 : e.src = p <;> by_cases h2 : e.dst = p <;>
      by_cases h3 : e.src = c <;> by_cases h4 : e.dst = c <;>
      simp_all [Function.comp]

theorem mem_splitWs_reduce_key {t key : Ident} :
    t ∈ splitWs (reduce_key key) ↔ t ∈ splitWs key := by
  rw [splitWs_reduce_key]
  exact mem_npUnique

theorem splitWs_foldl_collapse : ∀ (rows : List NodeRow) (init : Ident),
    splitWs (rows.foldl (fun k r => k ++ ' ' :: r.collapse_node) init)
      = splitWs init ++ (rows.map (fun r => splitWs r.collapse_node)).flatten
  | [], init => by simp
  | r :: rows, init => by
    rw [List.foldl_cons, splitWs_foldl_collapse rows (init ++ ' ' :: r.collapse_node),
        splitWs_append_space]
    simp

theorem wrap_key_good (x : Ident) (hx : ∀ ch ∈ x, isWs ch = false) :
    wrap_key x ≠ [] ∧ ∀ ch ∈ wrap_key x, isWs ch = false := by
  unfold wrap_key
  by_cases h : WRAP ∈ x
  · rw [if_pos h]
    exact ⟨List.ne_nil_of_mem h, hx⟩
  · rw [if_neg h]
    refine ⟨List.cons_ne_nil _ _, ?_⟩
    intro ch hch
    rcases List.mem_cons.mp hch with hch | hch
    · subst hch; decide
    · rcases List.mem_append.mp hch with hch | hch
      · exact hx ch hch
      · rw [List.mem_singleton.mp hch]; decide

theorem splitWs_wrap_key (x : Ident) (hx : ∀ ch ∈ x, isWs ch = false) :
    splitWs (wrap_key x) = [wrap_key x] :=
  splitWs_single _ (wrap_key_good x hx).1 (wrap_key_good x hx).2

theorem mem_splitWs_melt_of_cluster (ndf : List NodeRow) (x : Ident) :
    ∀ r ∈ cluster_rows ndf x, ∀ t ∈ splitWs r.collapse_node,
      t ∈ splitWs (melt ndf x) := by
  intro r hr t ht
  unfold melt
  rw [if_neg (List.ne_nil_of_mem hr)]
  rw [mem_splitWs_reduce_key, splitWs_foldl_collapse]
  refine List.mem_append_right _ ?_
  rw [List.mem_flatten]
  exact ⟨splitWs r.collapse_node, List.mem_map_of_mem _ hr, ht⟩

theorem wrap_mem_splitWs_melt (ndf : List NodeRow) (x : Ident)
    (hx : ∀ ch ∈ x, isWs ch = false) :
    wrap_key x ∈ splitWs (melt ndf x) := by
  unfold melt
  by_cases h : cluster_rows ndf x = []
  · rw [if_pos h, splitWs_wrap_key x hx]
    exact List.mem_singleton_self _
  · rw [if_neg h, mem_splitWs_reduce_key, splitWs_foldl_collapse]
    refine List.mem_append_left _ ?_
    rw [splitWs_wrap_key x hx]
    exact List.mem_singleton_self _

/-- C3 (amended): the key computed by `get_new_node_name` — the value that
`collapse_nodes_and_edges` assigns to the parent and child rows — contains
both endpoints' wrapped identities and absorbs every token of every pending
key the mask matches for the melted endpoint (the child when both endpoints
are already in cluster keys, the parent otherwise).  The rows of *other*
members of the supernode are not rewritten by the operation, so their
previously assigned keys can become stale proper subsets
(`stale_pending_key_cex`); the stale keys are only reunified when `melt`
re-reads them. -/
theorem get_new_node_name_absorbs_cluster_tokens (ndf : List NodeRow)
    (p c : Ident)
    (hp : ∀ ch ∈ p, isWs ch = false) (hc : ∀ ch ∈ c, isWs ch = false) :
    wrap_key p ∈ splitWs (get_new_node_name ndf p c)
    ∧ wrap_key c ∈ splitWs (get_new_node_name ndf p c)
    ∧ ∀ r ∈ cluster_rows ndf
        (if in_cluster_store_keys ndf c && in_cluster_store_keys ndf p then c
         else p),
      ∀ t ∈ splitWs r.collapse_node, t ∈ splitWs (get_new_node_name ndf p c) := by
  by_cases hb : (in_cluster_store_keys ndf c && in_cluster_store_keys ndf p) = true
  · simp only [get_new_node_name, hb, if_true, if_pos]
    rw [mem_splitWs_reduce_key, mem_splitWs_reduce_key, splitWs_append_space,
        splitWs_wrap_key p hp]
    refine ⟨List.mem_append_right _ (List.mem_singleton_self _),
            List.mem_append_left _ (wrap_mem_splitWs_melt ndf c hc), ?_⟩
    intro r hr t ht
    rw [mem_splitWs_reduce_key, splitWs_append_space]
    exact List.mem_append_left _ (mem_splitWs_melt_of_cluster ndf c r hr t ht)
  · simp only [get_new_node_name, hb, if_false, Bool.false_eq_true]
    rw [mem_splitWs_reduce_key, mem_splitWs_reduce_key, splitWs_append_space,
        splitWs_wrap_key c hc]
    refine ⟨List.mem_append_left _ (wrap_mem_splitWs_melt ndf p hp),
            List.mem_append_right _ (List.mem_singleton_self _), ?_⟩
    intro r hr t ht
    rw [mem_splitWs_reduce_key, splitWs_append_space]
    exact List.mem_append_left _ (mem_splitWs_melt_of_cluster ndf p r hr t ht)

/-- Witness for the amended C3 theorem at a concrete pair of identities. -/
theorem get_new_node_name_absorbs_witness :
    wrap_key ['a'] ∈ splitWs (get_new_node_name [] ['a'] ['b'])
    ∧ wrap_key ['b'] ∈ splitWs (get_new_node_name [] ['a'] ['b'])
    ∧ ∀ r ∈ cluster_rows ([] : List NodeRow)
        (if in_cluster_store_keys [] ['b'] && in_cluster_store_keys [] ['a']
         then ['b'] else ['a']),
      ∀ t ∈ splitWs r.collapse_node,
        t ∈ splitWs (get_new_node_name [] ['a'] ['b']) :=
  get_new_node_name_absorbs_cluster_tokens [] ['a'] ['b'] (by decide) (by decide)

/-- A three-node table on which two merges leave a stale pending key. -/
def gStaleBase : Graph :=
  ⟨[⟨['a'], ['x'], DEFAULT_VAL⟩, ⟨['b'], ['x'], DEFAULT_VAL⟩,
    ⟨['c'], ['x'], DEFAULT_VAL⟩], [], true, true⟩

/-- The table after merging the pair (a, b) and then the pair (a, c), as the
traversal does when collapsing a's neighbourhood. -/
def gStale : Graph :=
  collapse_nodes_and_edges (collapse_nodes_and_edges gStaleBase ['a'] ['b']) ['a'] ['c']

/-- Counterexample to C3 as stated: after merging (a, b) and then (a, c),
node b's pending key is still `~a~ ~b~` while node a's pending key is
`~a~ ~b~ ~c~`; both keys are set and both contain the wrapped identity
`~a~` (so the code's own membership test places the two rows in the same
supernode), yet b's token set is a stale proper subset of a's. -/
theorem stale_pending_key_cex :
    ∃ r1 ∈ gStale.ndf, ∃ r2 ∈ gStale.ndf,
      ¬ (r1.collapse_node = DEFAULT_VAL) ∧ ¬ (r2.collapse_node = DEFAULT_VAL)
      ∧ wrap_key ['a'] <:+: r1.collapse_node
      ∧ wrap_key ['a'] <:+: r2.collapse_node
      ∧ (∀ t ∈ splitWs r1.collapse_node, t ∈ splitWs r2.collapse_node)
      ∧ ¬ (∀ t ∈ splitWs r2.collapse_node, t ∈ splitWs r1.collapse_node) := by
  decide

/-- C7: substring containment yields false-positive cluster membership: the
identity `a` is reported as a member of a table whose only pending key is the
encoding of the distinct identity `x~a~y`, although `~a~` is not one of that
key's tokens. -/
theorem substring_false_positive_membership :
    ∃ id1 id2 : Ident, id1 ≠ id2
      ∧ in_cluster_store_keys [⟨id2, ['x'], wrap_key id2⟩] id1 = true
      ∧ wrap_key id1 ∉ splitWs (wrap_key id2) :=
  ⟨['a'], ['x', '~', 'a', '~', 'y'], by decide, by decide, by decide⟩

/-- C10: because `str.contains` treats the wrapped identity as a regular
expression, a node identity containing an unbalanced parenthesis makes the
membership lookup raise (`re.error`) instead of returning a boolean. -/
theorem in_cluster_store_keys_raises_on_regex_metachar :
    ∃ (ndf : List NodeRow) (node : Ident), '(' ∈ node
      ∧ in_cluster_store_keys_rx ndf node = Except.error () :=
  ⟨[⟨['b'], ['x'], DEFAULT_VAL⟩], ['('], by decide, rfl⟩

/-!  Idempotence of the row-level commits of `normalize_graph`. -/

theorem commitNodeRow_idem (r : NodeRow) :
    commitNodeRow (commitNodeRow r) = commitNodeRow r := by
  unfold commitNodeRow
  by_cases h : r.collapse_node = DEFAULT_VAL <;> simp [h]

theorem commitEdgeRow_idem (e : EdgeRow) :
    commitEdgeRow (commitEdgeRow e) = commitEdgeRow e := by
  unfold commitEdgeRow
  by_cases h1 : e.collapse_src = DEFAULT_VAL <;>
    by_cases h2 : e.collapse_dst = DEFAULT_VAL <;> simp [h1, h2]

theorem map_commitNodeRow_dedupFirst (l : List NodeRow) :
    (dedupFirst (l.map commitNodeRow)).map commitNodeRow
      = dedupFirst (l.map commitNodeRow) := by
  refine map_eq_self_of_mem ?_
  intro x hx
  rcases List.mem_map.mp (mem_of_mem_dedupFirst hx) with ⟨y, _, rfl⟩
  exact commitNodeRow_idem y

theorem map_commitEdgeRow_dedupFirst (l : List EdgeRow) :
    (dedupFirst (l.map commitEdgeRow)).map commitEdgeRow
      = dedupFirst (l.map commitEdgeRow) := by
  refine map_eq_self_of_mem ?_
  intro x hx
  rcases List.mem_map.mp (mem_of_mem_dedupFirst hx) with ⟨y, _, rfl⟩
  exact commitEdgeRow_idem y

theorem map_commitEdgeRow_map (l : List EdgeRow) :
    (l.map commitEdgeRow).map commitEdgeRow = l.map commitEdgeRow := by
  refine map_eq_self_of_mem ?_
  intro x hx
  rcases List.mem_map.mp hx with ⟨y, _, rfl⟩
  exact commitEdgeRow_idem y

/-- C5 (amended): at the point where `normalize_graph` deduplicates — i.e.
with `unwrap = false` and `remove_collapse = false` — the returned node table
has no duplicate full rows, and the returned edge table has none unless
`self_edges = true` was requested.  The later `unwrap` / `remove_collapse`
transformations run *after* deduplication and can reintroduce duplicates
(`normalize_graph_dedup_cex`). -/
theorem normalize_graph_nodup_before_unwrap_and_drop
    (g : Graph) (se : Bool) (g2 : Graph)
    (h1 : g.ncols = true) (h2 : g.ecols = true)
    (h : normalize_graph g se false false = Except.ok g2) :
    (nodeView g2).Nodup ∧ (se = false → (edgeView g2).Nodup) := by
  simp only [normalize_graph, h1, h2, Bool.and_self, ite_true,
    Bool.false_eq_true, ite_false, Bool.not_false, Except.ok.injEq] at h
  subst h
  constructor
  · simp only [nodeView, ite_true]
    refine List.Nodup.map ?_ (nodup_dedupFirst _)
    intro a b hab
    cases a; cases b
    simp only [Prod.mk.injEq, Option.some.injEq] at hab
    obtain ⟨e1, e2, e3⟩ := hab
    subst e1; subst e2; subst e3; rfl
  · intro hse
    subst hse
    simp only [edgeView, ite_true, Bool.false_eq_true, ite_false]
    refine List.Nodup.map ?_ (nodup_dedupFirst _)
    intro a b hab
    cases a; cases b
    simp only [Prod.mk.injEq, Option.some.injEq] at hab
    obtain ⟨e1, e2, e3, e4, e5⟩ := hab
    subst e1; subst e2; subst e3; subst e4; subst e5; rfl

/-- A small already-normalized graph used to witness the `normalize_graph`
theorems. -/
def gNorm : Graph :=
  ⟨[⟨['a'], ['x'], DEFAULT_VAL⟩],
   [⟨['a'], ['b'], ['w'], DEFAULT_VAL, DEFAULT_VAL⟩], true, true⟩

/-- Witness for the amended C5 theorem at a concrete graph. -/
theorem normalize_graph_nodup_witness :
    (nodeView gNorm).Nodup ∧ (false = false → (edgeView gNorm).Nodup) :=
  normalize_graph_nodup_before_unwrap_and_drop gNorm false gNorm rfl rfl rfl

/-- A node table on which committing pending keys makes two rows equal on all
columns except the pending-key column itself. -/
def gDupBase : Graph :=
  ⟨[⟨['a'], ['z'], ['~', 'x', '~']⟩, ⟨['~', 'x', '~'], ['z'], DEFAULT_VAL⟩],
   [], true, true⟩

/-- The output of `normalize_graph gDupBase false false true`. -/
def gDupRes : Graph :=
  ⟨[⟨['~', 'x', '~'], ['z'], ['~', 'x', '~']⟩,
    ⟨['~', 'x', '~'], ['z'], DEFAULT_VAL⟩], [], false, false⟩

/-- Counterexample to C5 as stated: with `remove_collapse = true` (and
`self_edges = false`, `unwrap = false`) the returned node table contains two
identical full rows, because deduplication runs before the pending-key
columns are dropped. -/
theorem normalize_graph_dedup_cex :
    normalize_graph gDupBase false false true = Except.ok gDupRes
    ∧ ¬ (nodeView gDupRes).Nodup :=
  ⟨rfl, by decide⟩

/-- C6 (amended): with `unwrap = false` and `remove_collapse = false`,
running `normalize_graph` again on its own output (with the same options)
succeeds and returns the output unchanged.  With `remove_collapse = true`
the second call instead fails, because the first call dropped the pending-key
columns (`normalize_second_run_fails_cex`); with `unwrap = true` the second
call may also deduplicate rows that unwrapping made equal. -/
theorem normalize_graph_idempotent_no_unwrap_no_drop
    (g : Graph) (se : Bool) (g1 : Graph)
    (h1 : g.ncols = true) (h2 : g.ecols = true)
    (h : normalize_graph g se false false = Except.ok g1) :
    normalize_graph g1 se false false = Except.ok g1 := by
  simp only [normalize_graph, h1, h2, Bool.and_self, ite_true,
    Bool.false_eq_true, ite_false, Bool.not_false, Except.ok.injEq] at h
  subst h
  cases se
  · simp only [normalize_graph, Bool.and_self, ite_true, Bool.false_eq_true,
      ite_false, Bool.not_false, Except.ok.injEq]
    rw [map_commitNodeRow_dedupFirst, dedupFirst_eq_self (nodup_dedupFirst _),
        map_commitEdgeRow_dedupFirst, dedupFirst_eq_self (nodup_dedupFirst _)]
  · simp only [normalize_graph, Bool.and_self, ite_true, Bool.false_eq_true,
      ite_false, Bool.not_false, Except.ok.injEq]
    rw [map_commitNodeRow_dedupFirst, dedupFirst_eq_self (nodup_dedupFirst _),
        map_commitEdgeRow_map]

/-- A graph with one pending merge, taken through `normalize_graph` once. -/
def gCommit : Graph :=
  ⟨[⟨['a'], ['z'], ['~', 'a', '~', ' ', '~', 'b', '~']⟩],
   [⟨['a'], ['b'], ['w'], ['~', 'a', '~', ' ', '~', 'b', '~'], DEFAULT_VAL⟩],
   true, true⟩

/-- The output of `normalize_graph gCommit false false false`. -/
def gCommitRes : Graph :=
  ⟨[⟨['~', 'a', '~', ' ', '~', 'b', '~'], ['z'],
     ['~', 'a', '~', ' ', '~', 'b', '~']⟩],
   [⟨['~', 'a', '~', ' ', '~', 'b', '~'], ['b'], ['w'],
     ['~', 'a', '~', ' ', '~', 'b', '~'], DEFAULT_VAL⟩],
   true, true⟩

/-- Witness for the amended C6 theorem at a concrete graph. -/
theorem normalize_graph_idempotent_witness :
    normalize_graph gCommitRes false false false = Except.ok gCommitRes :=
  normalize_graph_idempotent_no_unwrap_no_drop gCommit false gCommitRes rfl rfl rfl

/-- The output of `normalize_graph gCommit false false true`. -/
def gCommitDropRes : Graph :=
  ⟨[⟨['~', 'a', '~', ' ', '~', 'b', '~'], ['z'],
     ['~', 'a', '~', ' ', '~', 'b', '~']⟩],
   [⟨['~', 'a', '~', ' ', '~', 'b', '~'], ['b'], ['w'],
     ['~', 'a', '~', ' ', '~', 'b', '~'], DEFAULT_VAL⟩],
   false, false⟩

/-- Counterexample to C6 as stated: with `remove_collapse = true` the first
call succeeds, but the second call with identical options fails (pandas
`KeyError`: the pending-key columns were dropped by the first call) instead
of succeeding with an identical table. -/
theorem normalize_second_run_fails_cex :
    normalize_graph gCommit false false true = Except.ok gCommitDropRes
    ∧ normalize_graph gCommitDropRes false false true = Except.error () :=
  ⟨rfl, rfl⟩

/-- C4 (amended): when the pair key `f"{parent} {child}"` is already in the
shared visited set, `collapse` makes no recursive call (a single frame of
fuel suffices) and leaves the visited set unchanged, but it first runs
`check_default_columns_present_and_coerce_to_string`, which initialises the
pending-key columns if they are absent; when the columns are already present
— as on every recursive invocation — the node and edge tables are returned
exactly unchanged. -/
theorem collapse_seen_hit_noop (n : Nat) (g : Graph)
    (child parent attrVal : Ident) (seen : List Ident)
    (h : computeKey parent child ∈ seen) :
    collapse (n + 1) g child parent attrVal seen
      = some (check_default_columns_present_and_coerce_to_string g, seen)
    ∧ (g.ncols = true → g.ecols = true →
        check_default_columns_present_and_coerce_to_string g = g) := by
  constructor
  · simp only [collapse, if_pos h]
  · intro h1 h2
    simp [check_default_columns_present_and_coerce_to_string, h1, h2]

/-- A one-node graph whose pending-key columns are already present. -/
def gSeen : Graph := ⟨[⟨['n'], ['x'], DEFAULT_VAL⟩], [], true, true⟩

/-- Witness for the amended C4 theorem: a visited pair on a graph with the
columns present returns the graph and visited set untouched. -/
theorem collapse_seen_hit_noop_witness :
    collapse 1 gSeen ['a'] ['b'] ['y'] [computeKey ['b'] ['a']]
      = some (check_default_columns_present_and_coerce_to_string gSeen,
              [computeKey ['b'] ['a']])
    ∧ check_default_columns_present_and_coerce_to_string gSeen = gSeen := by
  have h := collapse_seen_hit_noop 0 gSeen ['a'] ['b'] ['y']
    [computeKey ['b'] ['a']] (by decide)
  exact ⟨h.1, h.2 rfl rfl⟩

/-- A graph whose pending-key columns are absent (as on a caller-supplied
first invocation). -/
def gNoCols : Graph :=
  ⟨[⟨['n'], ['x'], DEFAULT_VAL⟩],
   [⟨['n'], ['n'], ['w'], DEFAULT_VAL, DEFAULT_VAL⟩], false, false⟩

/-- Counterexample to C4 as stated: on a graph without the pending-key
columns, an invocation whose pair key is already visited does *not* return
the tables unchanged — the column-initialisation step runs before the
visited-set guard and adds the collapse columns. -/
theorem collapse_seen_hit_adds_columns_cex :
    collapse 1 gNoCols ['a'] ['b'] ['y'] [computeKey ['b'] ['a']]
      ≠ some (gNoCols, [computeKey ['b'] ['a']])
    ∧ collapse 1 gNoCols ['a'] ['b'] ['y'] [computeKey ['b'] ['a']]
      = some (check_default_columns_present_and_coerce_to_string gNoCols,
              [computeKey ['b'] ['a']])
    ∧ (check_default_columns_present_and_coerce_to_string gNoCols).ncols = true
    ∧ gNoCols.ncols = false :=
  ⟨by decide, rfl, rfl, rfl⟩

/-- A two-node cycle `a → b → a` in which no node carries the attribute
value `y` that the traversal collapses over. -/
def gCycle : Graph :=
  ⟨[⟨['a'], ['x'], DEFAULT_VAL⟩, ⟨['b'], ['x'], DEFAULT_VAL⟩],
   [⟨['a'], ['b'], ['e'], DEFAULT_VAL, DEFAULT_VAL⟩,
    ⟨['b'], ['a'], ['f'], DEFAULT_VAL, DEFAULT_VAL⟩], true, true⟩

/-- C1 fails on the code: on the finite cyclic graph `gCycle`, starting from
either orientation of the pair (a, b) with an empty visited set, the
traversal never completes however much fuel (call-stack depth) it is given —
the parent-lacks-property branch recurses without ever adding its pair to
`seen`, so the visited-set guard never fires and the recursion alternates
between the pairs (b, a) and (a, b) forever (Python: `RecursionError`). -/
theorem collapse_diverges_on_cycle (n : Nat) :
    collapse n gCycle ['a'] ['b'] ['y'] [] = none
    ∧ collapse n gCycle ['b'] ['a'] ['y'] [] = none := by
  induction n with
  | zero => exact ⟨rfl, rfl⟩
  | succ n ih =>
    constructor
    · rw [show collapse (n + 1) gCycle ['a'] ['b'] ['y'] []
            = collapseIter (fun g e c s => collapse n g e c ['y'] s)
                [['b']] gCycle ['a'] [] from rfl]
      simp only [collapseIter, ih.2]
    · rw [show collapse (n + 1) gCycle ['b'] ['a'] ['y'] []
            = collapseIter (fun g e c s => collapse n g e c ['y'] s)
                [['a']] gCycle ['b'] [] from rfl]
      simp only [collapseIter, ih.1]

end PyGraphistry
